import Mathlib

/-!
Verification of the text-tools pipeline (parse / transform / join).

The engine (`src/core/text-engine.ts`) is embedded shallowly: a JavaScript
string is a `List Char`, and each exported function becomes a Lean
definition with the same name.  The browser UI (`src/App.tsx`) carries its
own drifted copies of `transformValues` and `joinValues`; those are embedded
separately with an `App` suffix.
-/

namespace TextTools

/-- Characters matched by the split pattern of the source, the character
class of comma, semicolon, newline and pipe. -/
def isDelimChar (c : Char) : Bool :=
  c == ',' || c == ';' || c == '\n' || c == '|'

/-- White space in the sense of JavaScript `trim`: the ECMAScript
WhiteSpace and LineTerminator code points (tab, line feed, vertical tab,
form feed, carriage return, space, no-break space, Ogham space mark, the
U+2000 to U+200A spaces, line separator, paragraph separator, narrow
no-break space, medium mathematical space, ideographic space, zero width
no-break space). -/
def isJsWhitespace (c : Char) : Bool :=
  let n := c.toNat
  n == 9 || n == 10 || n == 11 || n == 12 || n == 13 || n == 32 ||
  n == 0xa0 || n == 0x1680 || (0x2000 <= n && n <= 0x200a) ||
  n == 0x2028 || n == 0x2029 || n == 0x202f || n == 0x205f ||
  n == 0x3000 || n == 0xfeff

/-- JavaScript `s.trim()` on a character list: drop white space from both
ends. -/
def trimL (l : List Char) : List Char :=
  ((l.dropWhile isJsWhitespace).reverse.dropWhile isJsWhitespace).reverse

/-- One step of `consHead`: prepend a character to the first fragment of a
fragment list (used by the split model below). -/
def consHead (c : Char) : List (List Char) → List (List Char)
  | [] => [[c]]
  | f :: fs => (c :: f) :: fs

/-- Model of the JavaScript `text.split(/[,;\n|]+/)`.  The boolean records
whether the previous character belonged to a delimiter run, so that a run
of delimiters acts as a single split point exactly as the regex `+` does.
Leading and trailing runs still produce empty boundary fragments, as in
JavaScript. -/
def splitRunsGo : List Char → Bool → List (List Char)
  | [], _ => [[]]
  | c :: cs, inRun =>
    if isDelimChar c then
      if inRun then splitRunsGo cs true
      else [] :: splitRunsGo cs true
    else consHead c (splitRunsGo cs false)

/-- The fragments of `text.split(/[,;\n|]+/)`. -/
def splitRuns (l : List Char) : List (List Char) :=
  splitRunsGo l false

/-- The per-fragment step of `parseInput` from `src/core/text-engine.ts`:
trim, strip one layer of symmetric wrapping when the ends match a quote
pair or a parenthesis pair, then trim again.  `slice(1, -1)` is
`(drop 1).dropLast`. -/
def cleanupFragment (part : List Char) : List Char :=
  let trimmed := trimL part
  let stripped :=
    if (trimmed.head? = some '"' ∧ trimmed.getLast? = some '"') ∨
       (trimmed.head? = some '\'' ∧ trimmed.getLast? = some '\'') ∨
       (trimmed.head? = some '(' ∧ trimmed.getLast? = some ')') then
      (trimmed.drop 1).dropLast
    else trimmed
  trimL stripped

/-- `parseInput` from `src/core/text-engine.ts`: split on delimiter runs,
clean every fragment, keep the non-empty results. -/
def parseInput (text : List Char) : List (List Char) :=
  ((splitRuns text).map cleanupFragment).filter (fun p => decide (0 < p.length))

/-- One character of JavaScript `toUpperCase` (Unicode Default Case
Conversion), modelled exactly on the Basic Latin and Latin-1 Supplement
blocks (including micro sign U+00B5, sharp s U+00DF whose image SS has two
characters, and y with diaeresis U+00FF); code points above U+00FF are
approximated as fixed points. -/
def upperChar (c : Char) : List Char :=
  let n := c.toNat
  if 97 ≤ n && n ≤ 122 then [Char.ofNat (n - 32)]
  else if n == 0xb5 then [Char.ofNat 0x39c]
  else if n == 0xdf then ['S', 'S']
  else if 0xe0 ≤ n && n ≤ 0xfe && n != 0xf7 then [Char.ofNat (n - 32)]
  else if n == 0xff then [Char.ofNat 0x178]
  else [c]

/-- One character of JavaScript `toLowerCase`, modelled exactly on the
Basic Latin and Latin-1 Supplement blocks; code points above U+00FF are
approximated as fixed points. -/
def lowerChar (c : Char) : List Char :=
  let n := c.toNat
  if 65 ≤ n && n ≤ 90 then [Char.ofNat (n + 32)]
  else if 0xc0 ≤ n && n ≤ 0xde && n != 0xd7 then [Char.ofNat (n + 32)]
  else [c]

/-- JavaScript `v.toUpperCase()` on a character list. -/
def toUpperCaseJs (v : List Char) : List Char :=
  (v.map upperChar).flatten

/-- JavaScript `v.toLowerCase()` on a character list. -/
def toLowerCaseJs (v : List Char) : List Char :=
  (v.map lowerChar).flatten

inductive Wrapper
  | single
  | double
  | paren
  | none
deriving DecidableEq

inductive CaseMode
  | none
  | upper
  | lower
deriving DecidableEq

inductive Delimiter
  | comma
  | semicolon
  | newline
  | commaNewline
  | pipe
  | custom
deriving DecidableEq

/-- The delimiter value as the literal TypeScript string of the union
type in `src/core/text-engine.ts`. -/
def Delimiter.lit : Delimiter → List Char
  | .comma => [',']
  | .semicolon => [';']
  | .newline => "NEWLINE".toList
  | .commaNewline => "COMMA_NEWLINE".toList
  | .pipe => ['|']
  | .custom => "custom".toList

/-- JavaScript `[...new Set(values)]`: first occurrences in insertion
order, tracked by the list of values already seen. -/
def dedupSeen {α : Type} [DecidableEq α] (seen : List α) : List α → List α
  | [] => []
  | v :: vs => if v ∈ seen then dedupSeen seen vs else v :: dedupSeen (v :: seen) vs

/-- The deduplication step of the source transformer. -/
def dedupFirst {α : Type} [DecidableEq α] (l : List α) : List α :=
  dedupSeen [] l

/-- The wrapping step of the source transformer applied to one value. -/
def wrapVal (w : Wrapper) (v : List Char) : List Char :=
  match w with
  | .paren => '(' :: v ++ [')']
  | .single => '\'' :: v ++ ['\'']
  | .double => '"' :: v ++ ['"']
  | .none => v

/-- `transformValues` from `src/core/text-engine.ts`: trim when enabled,
then case conversion, then deduplication when enabled, then wrapping when
the wrapper is not `none`. -/
def transformValues (values : List (List Char)) (wrapper : Wrapper)
    (dedup : Bool) (caseMode : CaseMode) (trim : Bool) : List (List Char) :=
  let result := values
  let result := if trim then result.map trimL else result
  let result :=
    match caseMode with
    | .upper => result.map toUpperCaseJs
    | .lower => result.map toLowerCaseJs
    | .none => result
  let result := if dedup then dedupFirst result else result
  let result :=
    match wrapper with
    | .none => result
    | _ => result.map (wrapVal wrapper)
  result

/-- `joinValues` from `src/core/text-engine.ts`: the newline and
comma-plus-newline kinds are handled first, then the remaining kinds use
the custom string when the kind is custom and the literal delimiter string
otherwise. -/
def joinValues (values : List (List Char)) (delimiter : Delimiter)
    (customDelimiter : List Char) : List Char :=
  if delimiter = .newline then List.intercalate ['\n'] values
  else if delimiter = .commaNewline then List.intercalate [',', '\n'] values
  else
    List.intercalate
      (if delimiter = .custom then customDelimiter else delimiter.lit) values

/-- FormattingOptions of the specification: wrapper, delimiter kind,
custom delimiter string, case mode, dedup toggle, trim toggle. -/
structure FormattingOptions where
  wrapper : Wrapper
  delimiterKind : Delimiter
  customDelimiter : List Char
  caseMode : CaseMode
  dedupEnabled : Bool
  trimEnabled : Bool

/-- The single logical operation the core exposes:
join after transform after parse. -/
def format (text : List Char) (o : FormattingOptions) : List Char :=
  joinValues
    (transformValues (parseInput text) o.wrapper o.dedupEnabled o.caseMode
      o.trimEnabled)
    o.delimiterKind o.customDelimiter

/-- The delimiter union of `src/App.tsx`, which lacks the
comma-plus-newline kind. -/
inductive DelimiterApp
  | comma
  | semicolon
  | newline
  | pipe
  | custom
deriving DecidableEq

/-- The delimiter value of `src/App.tsx` as its literal TypeScript
string. -/
def DelimiterApp.lit : DelimiterApp → List Char
  | .comma => [',']
  | .semicolon => [';']
  | .newline => "NEWLINE".toList
  | .pipe => ['|']
  | .custom => "custom".toList

/-- `transformValues` from `src/App.tsx`: identical to the engine version
except that it has no trim stage. -/
def transformValuesApp (values : List (List Char)) (wrapper : Wrapper)
    (dedup : Bool) (caseMode : CaseMode) : List (List Char) :=
  let result := values
  let result :=
    match caseMode with
    | .upper => result.map toUpperCaseJs
    | .lower => result.map toLowerCaseJs
    | .none => result
  let result := if dedup then dedupFirst result else result
  let result :=
    match wrapper with
    | .none => result
    | _ => result.map (wrapVal wrapper)
  result

/-- `joinValues` from `src/App.tsx`: resolves the custom string first and
only afterwards rewrites a delimiter string equal to NEWLINE into a
newline character. -/
def joinValuesApp (values : List (List Char)) (delimiter : DelimiterApp)
    (customDelimiter : List Char) : List Char :=
  let delim := if delimiter = .custom then customDelimiter else delimiter.lit
  let delim := if delim = "NEWLINE".toList then ['\n'] else delim
  List.intercalate delim values

/-- A trimmed list has no leading or trailing white space. -/
def NoEdgeWS (v : List Char) : Prop :=
  (∀ c, v.head? = some c → isJsWhitespace c = false) ∧
  (∀ c, v.getLast? = some c → isJsWhitespace c = false)

/-! Helper lemmas on the case-conversion model. -/

/-- Every value a fragment can yield has no delimiter characters. -/
def NoDelims (v : List Char) : Prop := ∀ c ∈ v, isDelimChar c = false

/-! Helper lemmas on deduplication. -/

/-- The specification wording of deduplication: remove later duplicates,
keeping the first occurrence. -/
def dedupSpec {α : Type} [DecidableEq α] : List α → List α
  | [] => []
  | x :: xs => x :: dedupSpec (xs.filter (fun y => decide (y ≠ x)))
termination_by l => l.length
decreasing_by
  all_goals
    simp only [List.length_cons]
    first
    | exact Nat.lt_succ_of_le (List.length_filter_le _ _)
    | exact Nat.lt_succ_self _

/-- The listed values occur in the text as disjoint infixes, from left to
right in the listed order. -/
inductive OccursInOrder : List (List Char) → List Char → Prop
  | nil (s : List Char) : OccursInOrder [] s
  | cons (pre v rest : List Char) (vs : List (List Char)) :
      OccursInOrder vs rest → OccursInOrder (v :: vs) (pre ++ v ++ rest)

/-! The four transformer stages named individually. -/

/-- Trim stage of the transformer. -/
def trimStage (trim : Bool) (vs : List (List Char)) : List (List Char) :=
  if trim then vs.map trimL else vs

/-- Case-conversion stage of the transformer. -/
def caseStage (cm : CaseMode) (vs : List (List Char)) : List (List Char) :=
  match cm with
  | .upper => vs.map toUpperCaseJs
  | .lower => vs.map toLowerCaseJs
  | .none => vs

/-- Deduplication stage of the transformer. -/
def dedupStage (d : Bool) (vs : List (List Char)) : List (List Char) :=
  if d then dedupFirst vs else vs

/-- Wrapping stage of the transformer. -/
def wrapStage (w : Wrapper) (vs : List (List Char)) : List (List Char) :=
  match w with
  | .none => vs
  | _ => vs.map (wrapVal w)

/-- Case conversion of a single value. -/
def caseStr (cm : CaseMode) (v : List Char) : List Char :=
  match cm with
  | .upper => toUpperCaseJs v
  | .lower => toLowerCaseJs v
  | .none => v

/-- The resolved join separator of the specification table. -/
def resolvedSep (dk : Delimiter) (cd : List Char) : List Char :=
  match dk with
  | .comma => [',']
  | .semicolon => [';']
  | .newline => ['\n']
  | .commaNewline => [',', '\n']
  | .pipe => ['|']
  | .custom => cd

/-! A specification-side parser: split on every single delimiter, with the
empty artifacts removed only by the final filter. -/

/-- Splitting on each single delimiter character. -/
def splitSingle : List Char → List (List Char)
  | [] => [[]]
  | c :: cs =>
    if isDelimChar c then [] :: splitSingle cs
    else consHead c (splitSingle cs)

/-- The symmetric wrap pairs named by the specification. -/
def wrapPairs : List (Char × Char) := [('"', '"'), ('\'', '\''), ('(', ')')]

/-- The per-fragment cleanup written from the specification words. -/
def cleanupSpec (f : List Char) : List Char :=
  let t := trimL f
  let s :=
    if wrapPairs.any (fun p => t.head? == some p.1 && t.getLast? == some p.2) then
      (t.drop 1).dropLast
    else t
  trimL s

/-- The parser written from the specification words. -/
def parseSpec (text : List Char) : List (List Char) :=
  ((splitSingle text).map cleanupSpec).filter (fun p => decide (0 < p.length))

/-- The transformer written from the specification words, with
deduplication phrased as removing the later duplicates. -/
def transformSpec (values : List (List Char)) (wrapper : Wrapper) (dedup : Bool)
    (caseMode : CaseMode) (trim : Bool) : List (List Char) :=
  wrapStage wrapper
    (if dedup then dedupSpec (caseStage caseMode (trimStage trim values))
     else caseStage caseMode (trimStage trim values))

/-! Helper lemmas for the ASCII restriction of case conversion. -/

/-- ASCII letters, the characters the specification allows case conversion
to change. -/
def isAsciiLetter (c : Char) : Bool :=
  (65 ≤ c.toNat && c.toNat ≤ 90) || (97 ≤ c.toNat && c.toNat ≤ 122)

/-! Helper lemmas on characters. -/

theorem char_toNat_ofNat {n : Nat} (h : n < 55296) : (Char.ofNat n).toNat = n := by
  unfold Char.ofNat
  rw [dif_pos (Or.inl h)]
  simp [Char.toNat, Char.ofNatAux, UInt32.toNat, UInt32.ofNatCore]

theorem char_eq_iff_toNat {a b : Char} : a = b ↔ a.toNat = b.toNat := by
  constructor
  · intro h
    rw [h]
  · intro h
    have ha := Char.ofNat_toNat a
    rw [h, Char.ofNat_toNat b] at ha
    exact ha.symm

theorem isDelimChar_iff {c : Char} :
    isDelimChar c = true ↔
      c.toNat = 44 ∨ c.toNat = 59 ∨ c.toNat = 10 ∨ c.toNat = 124 := by
  unfold isDelimChar
  simp only [Bool.or_eq_true, beq_iff_eq, char_eq_iff_toNat]
  have h1 : (',' : Char).toNat = 44 := rfl
  have h2 : (';' : Char).toNat = 59 := rfl
  have h3 : ('\n' : Char).toNat = 10 := rfl
  have h4 : ('|' : Char).toNat = 124 := rfl
  rw [h1, h2, h3, h4]
  tauto

theorem isJsWhitespace_iff {c : Char} :
    isJsWhitespace c = true ↔
      c.toNat = 9 ∨ c.toNat = 10 ∨ c.toNat = 11 ∨ c.toNat = 12 ∨
      c.toNat = 13 ∨ c.toNat = 32 ∨ c.toNat = 0xa0 ∨ c.toNat = 0x1680 ∨
      (0x2000 ≤ c.toNat ∧ c.toNat ≤ 0x200a) ∨ c.toNat = 0x2028 ∨
      c.toNat = 0x2029 ∨ c.toNat = 0x202f ∨ c.toNat = 0x205f ∨
      c.toNat = 0x3000 ∨ c.toNat = 0xfeff := by
  unfold isJsWhitespace
  simp only [Bool.or_eq_true, beq_iff_eq, Bool.and_eq_true, decide_eq_true_eq]
  tauto

/-! Helper lemmas on dropWhile and trim. -/

theorem head?_dropWhile_not {α : Type} (p : α → Bool) (l : List α) :
    ∀ c, (l.dropWhile p).head? = some c → p c = false := by
  induction l with
  | nil => intro c h; simp [List.dropWhile] at h
  | cons a l ih =>
    intro c h
    rw [List.dropWhile_cons] at h
    by_cases hp : p a = true
    · rw [if_pos hp] at h
      exact ih c h
    · rw [if_neg hp] at h
      simp only [List.head?_cons, Option.some.injEq] at h
      rw [← h]
      exact Bool.eq_false_iff.mpr hp

theorem dropWhile_eq_self_of_head? {α : Type} (p : α → Bool) (l : List α)
    (h : ∀ c, l.head? = some c → p c = false) : l.dropWhile p = l := by
  cases l with
  | nil => rfl
  | cons a l =>
    rw [List.dropWhile_cons, if_neg]
    simp [h a rfl]

theorem getLast?_of_suffix {α : Type} {l₁ l₂ : List α} (h : l₁ <:+ l₂)
    (hne : l₁ ≠ []) : l₂.getLast? = l₁.getLast? := by
  obtain ⟨t, rfl⟩ := h
  rw [List.getLast?_append]
  cases hl : l₁.getLast? with
  | none => exact absurd (List.getLast?_eq_none_iff.mp hl) hne
  | some c => rfl

theorem noEdgeWS_trimL (v : List Char) : NoEdgeWS (trimL v) := by
  unfold trimL
  constructor
  · intro c h
    rw [List.head?_reverse] at h
    by_cases hz : ((v.dropWhile isJsWhitespace).reverse.dropWhile isJsWhitespace) = []
    · rw [hz] at h
      simp at h
    · rw [← getLast?_of_suffix (List.dropWhile_suffix _) hz] at h
      rw [List.getLast?_reverse] at h
      exact head?_dropWhile_not _ _ c h
  · intro c h
    rw [List.getLast?_reverse] at h
    exact head?_dropWhile_not _ _ c h

theorem trimL_eq_self {v : List Char} (h : NoEdgeWS v) : trimL v = v := by
  unfold trimL
  rw [dropWhile_eq_self_of_head? _ _ h.1]
  rw [dropWhile_eq_self_of_head? _ _ (by simpa [List.head?_reverse] using h.2)]
  exact List.reverse_reverse v

theorem trimL_within (v : List Char) : trimL v <:+: v := by
  unfold trimL
  have h1 : v.dropWhile isJsWhitespace <:+ v := List.dropWhile_suffix _
  have h2 :
      ((v.dropWhile isJsWhitespace).reverse.dropWhile isJsWhitespace).reverse <+:
        v.dropWhile isJsWhitespace := by
    rw [← List.reverse_suffix]
    simpa using List.dropWhile_suffix (l := (v.dropWhile isJsWhitespace).reverse)
      isJsWhitespace
  exact h2.isInfix.trans h1.isInfix

theorem cleanupFragment_within (f : List Char) : cleanupFragment f <:+: f := by
  unfold cleanupFragment
  refine (trimL_within _).trans (.trans ?_ (trimL_within f))
  split
  · exact ((List.dropLast_prefix _).isInfix).trans (List.drop_suffix 1 _).isInfix
  · exact List.infix_rfl

theorem char_not_delim_ws {d : Char} (hlo : 33 ≤ d.toNat)
    (h1 : d.toNat ≠ 44) (h2 : d.toNat ≠ 59) (h3 : d.toNat ≠ 124)
    (h4 : d.toNat ≠ 160) (hhi : d.toNat < 5760) :
    isDelimChar d = false ∧ isJsWhitespace d = false := by
  constructor
  · rw [Bool.eq_false_iff]
    intro h
    have := isDelimChar_iff.mp h
    omega
  · rw [Bool.eq_false_iff]
    intro h
    have := isJsWhitespace_iff.mp h
    omega

theorem upperChar_ne_nil (c : Char) : upperChar c ≠ [] := by
  simp only [upperChar]
  split
  · simp
  · split
    · simp
    · split
      · simp
      · split
        · simp
        · split <;> simp

theorem lowerChar_ne_nil (c : Char) : lowerChar c ≠ [] := by
  simp only [lowerChar]
  split
  · simp
  · split <;> simp

theorem mem_upperChar {c d : Char} (h : d ∈ upperChar c) :
    (isDelimChar d = false ∧ isJsWhitespace d = false) ∨ d = c := by
  simp only [upperChar] at h
  split at h
  · rename_i hc
    simp only [Bool.and_eq_true, decide_eq_true_eq] at hc
    simp only [List.mem_singleton] at h
    subst h
    have hv : (Char.ofNat (c.toNat - 32)).toNat = c.toNat - 32 :=
      char_toNat_ofNat (by omega)
    exact Or.inl (char_not_delim_ws (by omega) (by omega) (by omega) (by omega)
      (by omega) (by omega))
  · split at h
    · rename_i hc
      simp only [beq_iff_eq] at hc
      simp only [List.mem_singleton] at h
      subst h
      have hv : (Char.ofNat 0x39c).toNat = 0x39c := char_toNat_ofNat (by omega)
      exact Or.inl (char_not_delim_ws (by omega) (by omega) (by omega) (by omega)
        (by omega) (by omega))
    · split at h
      · simp only [List.mem_cons, List.mem_singleton, List.not_mem_nil, or_false, or_self] at h
        subst h
        exact Or.inl (char_not_delim_ws (by decide) (by decide) (by decide)
          (by decide) (by decide) (by decide))
      · split at h
        · rename_i hc
          simp only [Bool.and_eq_true, decide_eq_true_eq, bne_iff_ne] at hc
          simp only [List.mem_singleton] at h
          subst h
          have hv : (Char.ofNat (c.toNat - 32)).toNat = c.toNat - 32 :=
            char_toNat_ofNat (by omega)
          exact Or.inl (char_not_delim_ws (by omega) (by omega) (by omega)
            (by omega) (by omega) (by omega))
        · split at h
          · simp only [List.mem_singleton] at h
            subst h
            have hv : (Char.ofNat 0x178).toNat = 0x178 := char_toNat_ofNat (by omega)
            exact Or.inl (char_not_delim_ws (by omega) (by omega) (by omega)
              (by omega) (by omega) (by omega))
          · simp only [List.mem_singleton] at h
            exact Or.inr h

theorem mem_lowerChar {c d : Char} (h : d ∈ lowerChar c) :
    (isDelimChar d = false ∧ isJsWhitespace d = false) ∨ d = c := by
  simp only [lowerChar] at h
  split at h
  · rename_i hc
    simp only [Bool.and_eq_true, decide_eq_true_eq] at hc
    simp only [List.mem_singleton] at h
    subst h
    have hv : (Char.ofNat (c.toNat + 32)).toNat = c.toNat + 32 :=
      char_toNat_ofNat (by omega)
    exact Or.inl (char_not_delim_ws (by omega) (by omega) (by omega) (by omega)
      (by omega) (by omega))
  · split at h
    · rename_i hc
      simp only [Bool.and_eq_true, decide_eq_true_eq, bne_iff_ne] at hc
      simp only [List.mem_singleton] at h
      subst h
      have hv : (Char.ofNat (c.toNat + 32)).toNat = c.toNat + 32 :=
        char_toNat_ofNat (by omega)
      exact Or.inl (char_not_delim_ws (by omega) (by omega) (by omega) (by omega)
        (by omega) (by omega))
    · simp only [List.mem_singleton] at h
      exact Or.inr h

theorem upperChar_eq_self {d : Char} (h1 : ¬(97 ≤ d.toNat ∧ d.toNat ≤ 122))
    (h2 : d.toNat ≠ 181) (h3 : d.toNat ≠ 223)
    (h4 : ¬(224 ≤ d.toNat ∧ d.toNat ≤ 254 ∧ d.toNat ≠ 247))
    (h5 : d.toNat ≠ 255) : upperChar d = [d] := by
  simp only [upperChar]
  rw [if_neg (by simp only [Bool.and_eq_true, decide_eq_true_eq]; omega),
    if_neg (by simp only [beq_iff_eq]; omega),
    if_neg (by simp only [beq_iff_eq]; omega),
    if_neg (by simp only [Bool.and_eq_true, decide_eq_true_eq, bne_iff_ne]; omega),
    if_neg (by simp only [beq_iff_eq]; omega)]

theorem lowerChar_eq_self {d : Char} (h1 : ¬(65 ≤ d.toNat ∧ d.toNat ≤ 90))
    (h2 : ¬(192 ≤ d.toNat ∧ d.toNat ≤ 222 ∧ d.toNat ≠ 215)) :
    lowerChar d = [d] := by
  simp only [lowerChar]
  rw [if_neg (by simp only [Bool.and_eq_true, decide_eq_true_eq]; omega),
    if_neg (by simp only [Bool.and_eq_true, decide_eq_true_eq, bne_iff_ne]; omega)]

theorem upperChar_fix {c d : Char} (h : d ∈ upperChar c) : upperChar d = [d] := by
  simp only [upperChar] at h
  split at h
  · rename_i hc
    simp only [Bool.and_eq_true, decide_eq_true_eq] at hc
    simp only [List.mem_singleton] at h
    subst h
    have hv : (Char.ofNat (c.toNat - 32)).toNat = c.toNat - 32 :=
      char_toNat_ofNat (by omega)
    exact upperChar_eq_self (by omega) (by omega) (by omega) (by omega) (by omega)
  · split at h
    · simp only [List.mem_singleton] at h
      subst h
      have hv : (Char.ofNat 0x39c).toNat = 0x39c := char_toNat_ofNat (by omega)
      exact upperChar_eq_self (by omega) (by omega) (by omega) (by omega) (by omega)
    · split at h
      · simp only [List.mem_cons, List.mem_singleton, List.not_mem_nil, or_false, or_self] at h
        subst h
        exact upperChar_eq_self (by decide) (by decide) (by decide) (by decide)
          (by decide)
      · split at h
        · rename_i hc
          simp only [Bool.and_eq_true, decide_eq_true_eq, bne_iff_ne] at hc
          simp only [List.mem_singleton] at h
          subst h
          have hv : (Char.ofNat (c.toNat - 32)).toNat = c.toNat - 32 :=
            char_toNat_ofNat (by omega)
          exact upperChar_eq_self (by omega) (by omega) (by omega) (by omega)
            (by omega)
        · split at h
          · simp only [List.mem_singleton] at h
            subst h
            have hv : (Char.ofNat 0x178).toNat = 0x178 := char_toNat_ofNat (by omega)
            exact upperChar_eq_self (by omega) (by omega) (by omega) (by omega)
              (by omega)
          · rename_i h1 h2 h3 h4 h5
            simp only [List.mem_singleton] at h
            subst h
            simp only [Bool.and_eq_true, decide_eq_true_eq, beq_iff_eq,
              bne_iff_ne] at h1 h2 h3 h4 h5
            exact upperChar_eq_self (by omega) (by omega) (by omega) (by omega)
              (by omega)

theorem lowerChar_fix {c d : Char} (h : d ∈ lowerChar c) : lowerChar d = [d] := by
  simp only [lowerChar] at h
  split at h
  · rename_i hc
    simp only [Bool.and_eq_true, decide_eq_true_eq] at hc
    simp only [List.mem_singleton] at h
    subst h
    have hv : (Char.ofNat (c.toNat + 32)).toNat = c.toNat + 32 :=
      char_toNat_ofNat (by omega)
    exact lowerChar_eq_self (by omega) (by omega)
  · split at h
    · rename_i hc
      simp only [Bool.and_eq_true, decide_eq_true_eq, bne_iff_ne] at hc
      simp only [List.mem_singleton] at h
      subst h
      have hv : (Char.ofNat (c.toNat + 32)).toNat = c.toNat + 32 :=
        char_toNat_ofNat (by omega)
      exact lowerChar_eq_self (by omega) (by omega)
    · rename_i h1 h2
      simp only [List.mem_singleton] at h
      subst h
      simp only [Bool.and_eq_true, decide_eq_true_eq, bne_iff_ne] at h1 h2
      exact lowerChar_eq_self (by omega) (by omega)

theorem toUpperCaseJs_append (a b : List Char) :
    toUpperCaseJs (a ++ b) = toUpperCaseJs a ++ toUpperCaseJs b := by
  simp [toUpperCaseJs]

theorem toLowerCaseJs_append (a b : List Char) :
    toLowerCaseJs (a ++ b) = toLowerCaseJs a ++ toLowerCaseJs b := by
  simp [toLowerCaseJs]

theorem toUpperCaseJs_cons (c : Char) (v : List Char) :
    toUpperCaseJs (c :: v) = upperChar c ++ toUpperCaseJs v := by
  simp [toUpperCaseJs]

theorem toLowerCaseJs_cons (c : Char) (v : List Char) :
    toLowerCaseJs (c :: v) = lowerChar c ++ toLowerCaseJs v := by
  simp [toLowerCaseJs]

theorem toUpperCaseJs_ne_nil {v : List Char} (h : v ≠ []) :
    toUpperCaseJs v ≠ [] := by
  cases v with
  | nil => exact absurd rfl h
  | cons c v =>
    rw [toUpperCaseJs_cons]
    intro hx
    rcases List.append_eq_nil.mp hx with ⟨h1, _⟩
    exact upperChar_ne_nil c h1

theorem toLowerCaseJs_ne_nil {v : List Char} (h : v ≠ []) :
    toLowerCaseJs v ≠ [] := by
  cases v with
  | nil => exact absurd rfl h
  | cons c v =>
    rw [toLowerCaseJs_cons]
    intro hx
    rcases List.append_eq_nil.mp hx with ⟨h1, _⟩
    exact lowerChar_ne_nil c h1

theorem mem_toUpperCaseJs {v : List Char} {d : Char} (h : d ∈ toUpperCaseJs v) :
    ∃ c ∈ v, d ∈ upperChar c := by
  simp only [toUpperCaseJs, List.mem_flatten, List.mem_map] at h
  obtain ⟨l, ⟨c, hc, rfl⟩, hd⟩ := h
  exact ⟨c, hc, hd⟩

theorem mem_toLowerCaseJs {v : List Char} {d : Char} (h : d ∈ toLowerCaseJs v) :
    ∃ c ∈ v, d ∈ lowerChar c := by
  simp only [toLowerCaseJs, List.mem_flatten, List.mem_map] at h
  obtain ⟨l, ⟨c, hc, rfl⟩, hd⟩ := h
  exact ⟨c, hc, hd⟩

theorem noDelims_toUpperCaseJs {v : List Char} (h : NoDelims v) :
    NoDelims (toUpperCaseJs v) := by
  intro d hd
  obtain ⟨c, hc, hmem⟩ := mem_toUpperCaseJs hd
  rcases mem_upperChar hmem with ⟨hdel, _⟩ | rfl
  · exact hdel
  · exact h d hc

theorem noDelims_toLowerCaseJs {v : List Char} (h : NoDelims v) :
    NoDelims (toLowerCaseJs v) := by
  intro d hd
  obtain ⟨c, hc, hmem⟩ := mem_toLowerCaseJs hd
  rcases mem_lowerChar hmem with ⟨hdel, _⟩ | rfl
  · exact hdel
  · exact h d hc

theorem noEdgeWS_toUpperCaseJs {v : List Char} (h : NoEdgeWS v) :
    NoEdgeWS (toUpperCaseJs v) := by
  constructor
  · intro d hd
    cases v with
    | nil => simp [toUpperCaseJs] at hd
    | cons a v =>
      rw [toUpperCaseJs_cons] at hd
      obtain ⟨e, es, he⟩ := List.exists_cons_of_ne_nil (upperChar_ne_nil a)
      rw [he, List.cons_append, List.head?_cons, Option.some.injEq] at hd
      have hmem : d ∈ upperChar a := by
        rw [he, ← hd]
        exact List.mem_cons_self _ _
      rcases mem_upperChar hmem with ⟨_, hws⟩ | rfl
      · exact hws
      · exact h.1 d rfl
  · intro d hd
    induction v using List.reverseRecOn with
    | nil => simp [toUpperCaseJs] at hd
    | append_singleton A a _ =>
      rw [toUpperCaseJs_append,
        show toUpperCaseJs [a] = upperChar a by simp [toUpperCaseJs],
        List.getLast?_append] at hd
      cases hl : (upperChar a).getLast? with
      | none => exact absurd (List.getLast?_eq_none_iff.mp hl) (upperChar_ne_nil a)
      | some e =>
        rw [hl] at hd
        simp only [Option.or_some, Option.some.injEq] at hd
        have hmem : d ∈ upperChar a := by
          rw [← hd]
          exact List.mem_of_mem_getLast? (by rw [hl]; rfl)
        rcases mem_upperChar hmem with ⟨_, hws⟩ | rfl
        · exact hws
        · exact h.2 d (List.getLast?_concat A)

theorem noEdgeWS_toLowerCaseJs {v : List Char} (h : NoEdgeWS v) :
    NoEdgeWS (toLowerCaseJs v) := by
  constructor
  · intro d hd
    cases v with
    | nil => simp [toLowerCaseJs] at hd
    | cons a v =>
      rw [toLowerCaseJs_cons] at hd
      obtain ⟨e, es, he⟩ := List.exists_cons_of_ne_nil (lowerChar_ne_nil a)
      rw [he, List.cons_append, List.head?_cons, Option.some.injEq] at hd
      have hmem : d ∈ lowerChar a := by
        rw [he, ← hd]
        exact List.mem_cons_self _ _
      rcases mem_lowerChar hmem with ⟨_, hws⟩ | rfl
      · exact hws
      · exact h.1 d rfl
  · intro d hd
    induction v using List.reverseRecOn with
    | nil => simp [toLowerCaseJs] at hd
    | append_singleton A a _ =>
      rw [toLowerCaseJs_append,
        show toLowerCaseJs [a] = lowerChar a by simp [toLowerCaseJs],
        List.getLast?_append] at hd
      cases hl : (lowerChar a).getLast? with
      | none => exact absurd (List.getLast?_eq_none_iff.mp hl) (lowerChar_ne_nil a)
      | some e =>
        rw [hl] at hd
        simp only [Option.or_some, Option.some.injEq] at hd
        have hmem : d ∈ lowerChar a := by
          rw [← hd]
          exact List.mem_of_mem_getLast? (by rw [hl]; rfl)
        rcases mem_lowerChar hmem with ⟨_, hws⟩ | rfl
        · exact hws
        · exact h.2 d (List.getLast?_concat A)

theorem flatten_map_eq_self {α : Type} (f : α → List α) (l : List α)
    (h : ∀ d ∈ l, f d = [d]) : (l.map f).flatten = l := by
  induction l with
  | nil => rfl
  | cons a l ih =>
    simp only [List.map_cons, List.flatten_cons, h a (List.mem_cons_self a l)]
    rw [ih fun d hd => h d (List.mem_cons_of_mem a hd)]
    rfl

theorem toUpperCaseJs_fix (v : List Char) :
    toUpperCaseJs (toUpperCaseJs v) = toUpperCaseJs v := by
  induction v with
  | nil => rfl
  | cons c v ih =>
    rw [toUpperCaseJs_cons, toUpperCaseJs_append, ih]
    congr 1
    exact flatten_map_eq_self upperChar (upperChar c) fun d hd => upperChar_fix hd

theorem toLowerCaseJs_fix (v : List Char) :
    toLowerCaseJs (toLowerCaseJs v) = toLowerCaseJs v := by
  induction v with
  | nil => rfl
  | cons c v ih =>
    rw [toLowerCaseJs_cons, toLowerCaseJs_append, ih]
    congr 1
    exact flatten_map_eq_self lowerChar (lowerChar c) fun d hd => lowerChar_fix hd

theorem dedupSeen_eq_dedupSpec {α : Type} [DecidableEq α] (l : List α) :
    ∀ seen : List α,
      dedupSeen seen l = dedupSpec (l.filter (fun v => decide (v ∉ seen))) := by
  induction l with
  | nil => intro seen; simp [dedupSeen, dedupSpec]
  | cons v vs ih =>
    intro seen
    rw [dedupSeen, List.filter_cons]
    by_cases hv : v ∈ seen
    · rw [if_pos hv, if_neg (by simpa using hv)]
      exact ih seen
    · rw [if_neg hv, if_pos (by simpa using hv)]
      rw [dedupSpec, ih (v :: seen), List.filter_filter]
      refine congrArg _ (congrArg dedupSpec ?_)
      apply List.filter_congr
      intro x _
      by_cases h1 : x = v <;> by_cases h2 : x ∈ seen <;>
        simp [List.mem_cons, h1, h2]

theorem dedupFirst_eq_dedupSpec {α : Type} [DecidableEq α] (l : List α) :
    dedupFirst l = dedupSpec l := by
  rw [dedupFirst, dedupSeen_eq_dedupSpec l []]
  congr 1
  rw [show (fun v : α => decide (v ∉ ([] : List α))) = fun _ => true by
    funext v; simp]
  exact List.filter_true l

theorem dedupSpec_sublist {α : Type} [DecidableEq α] :
    ∀ l : List α, List.Sublist (dedupSpec l) l
  | [] => by rw [dedupSpec]
  | x :: xs => by
    rw [dedupSpec]
    exact ((dedupSpec_sublist _).trans (List.filter_sublist xs)).cons₂ x
termination_by l => l.length
decreasing_by
  all_goals
    simp only [List.length_cons]
    first
    | exact Nat.lt_succ_of_le (List.length_filter_le _ _)
    | exact Nat.lt_succ_self _

theorem mem_dedupSpec {α : Type} [DecidableEq α] {x : α} :
    ∀ {l : List α}, x ∈ dedupSpec l ↔ x ∈ l
  | [] => by rw [dedupSpec]
  | y :: xs => by
    rw [dedupSpec]
    simp only [List.mem_cons]
    constructor
    · rintro (rfl | hx)
      · exact Or.inl rfl
      · exact Or.inr (List.mem_of_mem_filter (mem_dedupSpec.mp hx))
    · rintro (rfl | hx)
      · exact Or.inl rfl
      · by_cases hxy : x = y
        · exact Or.inl hxy
        · refine Or.inr (mem_dedupSpec.mpr ?_)
          rw [List.mem_filter]
          exact ⟨hx, by simpa using hxy⟩
termination_by l => l.length
decreasing_by
  all_goals
    simp only [List.length_cons]
    first
    | exact Nat.lt_succ_of_le (List.length_filter_le _ _)
    | exact Nat.lt_succ_self _

theorem nodup_dedupSpec {α : Type} [DecidableEq α] :
    ∀ l : List α, (dedupSpec l).Nodup
  | [] => by rw [dedupSpec]; exact List.nodup_nil
  | x :: xs => by
    rw [dedupSpec, List.nodup_cons]
    refine ⟨fun hmem => ?_, nodup_dedupSpec _⟩
    have := mem_dedupSpec.mp hmem
    rw [List.mem_filter] at this
    simpa using this.2
termination_by l => l.length
decreasing_by
  all_goals
    simp only [List.length_cons]
    first
    | exact Nat.lt_succ_of_le (List.length_filter_le _ _)
    | exact Nat.lt_succ_self _

theorem dedupSpec_eq_self_of_nodup {α : Type} [DecidableEq α] :
    ∀ {l : List α}, l.Nodup → dedupSpec l = l
  | [] => by rw [dedupSpec]; exact fun _ => rfl
  | x :: xs => by
    intro h
    rw [List.nodup_cons] at h
    rw [dedupSpec]
    have hfe : xs.filter (fun y => decide (y ≠ x)) = xs := by
      rw [List.filter_eq_self]
      intro a ha
      simp only [decide_eq_true_eq]
      intro hax
      exact h.1 (hax ▸ ha)
    rw [hfe, dedupSpec_eq_self_of_nodup h.2]
termination_by l => l.length
decreasing_by
  all_goals
    simp only [List.length_cons]
    first
    | exact Nat.lt_succ_of_le (List.length_filter_le _ _)
    | exact Nat.lt_succ_self _

theorem dedupFirst_eq_self_of_nodup {α : Type} [DecidableEq α] {l : List α}
    (h : l.Nodup) : dedupFirst l = l := by
  rw [dedupFirst_eq_dedupSpec]
  exact dedupSpec_eq_self_of_nodup h

/-! Helper lemmas on the split model. -/

theorem splitRunsGo_ne_nil (l : List Char) : ∀ b, splitRunsGo l b ≠ [] := by
  induction l with
  | nil => intro b; simp [splitRunsGo]
  | cons c cs ih =>
    intro b
    simp only [splitRunsGo]
    split
    · split
      · exact ih true
      · simp
    · cases h : splitRunsGo cs false with
      | nil => exact absurd h (ih false)
      | cons f fs => simp [consHead]

theorem noDelims_splitRunsGo (l : List Char) :
    ∀ b f, f ∈ splitRunsGo l b → NoDelims f := by
  induction l with
  | nil =>
    intro b f hf
    simp only [splitRunsGo, List.mem_singleton] at hf
    subst hf
    intro c hc
    simp at hc
  | cons c cs ih =>
    intro b f hf
    simp only [splitRunsGo] at hf
    split at hf
    · split at hf
      · exact ih true f hf
      · rcases List.mem_cons.mp hf with rfl | hf
        · intro x hx; simp at hx
        · exact ih true f hf
    · rename_i hdelim
      cases h : splitRunsGo cs false with
      | nil => exact absurd h (splitRunsGo_ne_nil cs false)
      | cons g gs =>
        rw [h] at hf
        simp only [consHead, List.mem_cons] at hf
        rcases hf with rfl | hf
        · intro x hx
          rcases List.mem_cons.mp hx with rfl | hx
          · exact Bool.eq_false_iff.mpr hdelim
          · exact ih false g (by rw [h]; exact List.mem_cons_self g gs) x hx
        · exact ih false f (by rw [h]; exact List.mem_cons_of_mem g hf)

theorem noDelims_of_infix {f v : List Char} (hinf : v <:+: f)
    (h : NoDelims f) : NoDelims v :=
  fun c hc => h c (hinf.subset hc)

theorem noEdgeWS_cleanupFragment (f : List Char) :
    NoEdgeWS (cleanupFragment f) := by
  unfold cleanupFragment
  exact noEdgeWS_trimL _

/-- Every parsed value is non-empty, contains no delimiter characters, and
has no leading or trailing white space. -/
theorem parseInput_good (text : List Char) :
    ∀ v ∈ parseInput text, v ≠ [] ∧ NoDelims v ∧ NoEdgeWS v := by
  intro v hv
  unfold parseInput at hv
  rw [List.mem_filter] at hv
  obtain ⟨hmem, hlen⟩ := hv
  rw [List.mem_map] at hmem
  obtain ⟨f, hf, rfl⟩ := hmem
  refine ⟨?_, ?_, noEdgeWS_cleanupFragment f⟩
  · intro hnil
    rw [hnil] at hlen
    simp at hlen
  · exact noDelims_of_infix (cleanupFragment_within f)
      (noDelims_splitRunsGo text false f hf)

theorem occursInOrder_prepend {vs : List (List Char)} {s : List Char}
    (junk : List Char) (h : OccursInOrder vs s) :
    OccursInOrder vs (junk ++ s) := by
  cases h with
  | nil s => exact OccursInOrder.nil _
  | cons pre v rest vs h =>
    have := OccursInOrder.cons (junk ++ pre) v rest vs h
    simpa [List.append_assoc] using this

theorem occursInOrder_sublist {vs' vs : List (List Char)}
    (hsub : List.Sublist vs' vs) :
    ∀ {s : List Char}, OccursInOrder vs s → OccursInOrder vs' s := by
  induction hsub with
  | slnil => intro s h; exact h
  | cons a hsub ih =>
    intro s h
    cases h
    rename_i pre rest h'
    have := occursInOrder_prepend (pre ++ a) (ih h')
    simpa [List.append_assoc] using this
  | cons₂ a hsub ih =>
    intro s h
    cases h
    rename_i pre rest h'
    exact OccursInOrder.cons pre a rest _ (ih h')

theorem occursInOrder_forall₂ {vs fs : List (List Char)}
    (hf : List.Forall₂ (fun v f => v <:+: f) vs fs) :
    ∀ {s : List Char}, OccursInOrder fs s → OccursInOrder vs s := by
  induction hf with
  | nil => intro s _; exact OccursInOrder.nil s
  | cons hvf hrest ih =>
    rename_i v f vs fs
    intro s h
    cases h
    rename_i pre rest h'
    obtain ⟨p2, s2, hf2⟩ := hvf
    rw [← hf2]
    have h2 := occursInOrder_prepend s2 (ih h')
    have := OccursInOrder.cons (pre ++ p2) v (s2 ++ rest) _ h2
    simpa [List.append_assoc] using this

theorem forall₂_infix_map_cleanup (fs : List (List Char)) :
    List.Forall₂ (fun v f => v <:+: f) (fs.map cleanupFragment) fs := by
  induction fs with
  | nil => exact List.Forall₂.nil
  | cons f fs ih => exact List.Forall₂.cons (cleanupFragment_within f) ih

theorem splitRunsGo_decomp (l : List Char) :
    ∀ b, ∃ f fs pre rest, splitRunsGo l b = f :: fs ∧ l = pre ++ f ++ rest ∧
      OccursInOrder fs rest ∧ (b = false → pre = []) := by
  induction l with
  | nil =>
    intro b
    exact ⟨[], [], [], [], rfl, rfl, OccursInOrder.nil _, fun _ => rfl⟩
  | cons c cs ih =>
    intro b
    by_cases hc : isDelimChar c = true
    · cases b with
      | true =>
        obtain ⟨f, fs, pre, rest, h1, h2, h3, _⟩ := ih true
        refine ⟨f, fs, c :: pre, rest, ?_, ?_, h3, by simp⟩
        · simp [splitRunsGo, hc, h1]
        · simp [h2]
      | false =>
        obtain ⟨f, fs, pre, rest, h1, h2, h3, _⟩ := ih true
        refine ⟨[], splitRunsGo cs true, [], c :: cs, ?_, rfl, ?_, fun _ => rfl⟩
        · simp [splitRunsGo, hc]
        · rw [h1]
          subst h2
          have := OccursInOrder.cons (c :: pre) f rest fs h3
          simpa using this
    · obtain ⟨f, fs, pre, rest, h1, h2, h3, h4⟩ := ih false
      have hpre : pre = [] := h4 rfl
      subst hpre
      refine ⟨c :: f, fs, [], rest, ?_, ?_, h3, fun _ => rfl⟩
      · simp only [splitRunsGo, if_neg hc, h1, consHead]
      · simp only [List.nil_append] at h2
        simp [h2]

theorem occursInOrder_splitRunsGo (l : List Char) (b : Bool) :
    OccursInOrder (splitRunsGo l b) l := by
  obtain ⟨f, fs, pre, rest, h1, h2, h3, _⟩ := splitRunsGo_decomp l b
  rw [h1, h2]
  exact OccursInOrder.cons pre f rest fs h3

theorem occursInOrder_parseInput (text : List Char) :
    OccursInOrder (parseInput text) text := by
  unfold parseInput
  have h1 : OccursInOrder (splitRuns text) text :=
    occursInOrder_splitRunsGo text false
  have h2 : OccursInOrder ((splitRuns text).map cleanupFragment) text :=
    occursInOrder_forall₂ (forall₂_infix_map_cleanup _) h1
  exact occursInOrder_sublist (List.filter_sublist _) h2

/-! Reconstruction: splitting the joined output recovers the fragments. -/

theorem map_eq_self_of_forall {α : Type} (f : α → α) (l : List α)
    (h : ∀ x ∈ l, f x = x) : l.map f = l := by
  induction l with
  | nil => rfl
  | cons a l ih =>
    rw [List.map_cons, h a (List.mem_cons_self a l),
      ih fun x hx => h x (List.mem_cons_of_mem a hx)]

theorem splitRunsGo_noDelims {w : List Char} (h : NoDelims w) :
    splitRunsGo w false = [w] := by
  induction w with
  | nil => rfl
  | cons c cs ih =>
    have hc : isDelimChar c = false := h c (List.mem_cons_self c cs)
    have hcs : NoDelims cs := fun x hx => h x (List.mem_cons_of_mem c hx)
    simp only [splitRunsGo]
    rw [if_neg (by simp [hc]), ih hcs]
    rfl

theorem splitRunsGo_append_delim {w : List Char} (hw : NoDelims w) {d : Char}
    (hd : isDelimChar d = true) (r : List Char) :
    splitRunsGo (w ++ d :: r) false = w :: splitRunsGo r true := by
  induction w with
  | nil => simp [splitRunsGo, hd]
  | cons c cs ih =>
    have hc : isDelimChar c = false := hw c (List.mem_cons_self c cs)
    have hcs : NoDelims cs := fun x hx => hw x (List.mem_cons_of_mem c hx)
    rw [List.cons_append]
    simp only [splitRunsGo]
    rw [if_neg (by simp [hc]), ih hcs]
    rfl

theorem splitRunsGo_skip_delims {ds : List Char}
    (h : ∀ c ∈ ds, isDelimChar c = true) (r : List Char) :
    splitRunsGo (ds ++ r) true = splitRunsGo r true := by
  induction ds with
  | nil => rfl
  | cons c cs ih =>
    have hc := h c (List.mem_cons_self c cs)
    rw [List.cons_append]
    simp only [splitRunsGo]
    rw [if_pos (by simp [hc])]
    rw [if_pos trivial]
    exact ih fun x hx => h x (List.mem_cons_of_mem c hx)

theorem splitRunsGo_true_eq_false {c : Char} (hc : isDelimChar c = false)
    (r : List Char) : splitRunsGo (c :: r) true = splitRunsGo (c :: r) false := by
  simp only [splitRunsGo]
  rw [if_neg (by simp [hc]), if_neg (by simp [hc])]

theorem intercalate_cons_cons (sep a b : List Char) (r : List (List Char)) :
    List.intercalate sep (a :: b :: r) = a ++ sep ++ List.intercalate sep (b :: r) := by
  simp [List.intercalate, List.intersperse]

theorem intercalate_singleton (sep w : List Char) :
    List.intercalate sep [w] = w := by
  simp [List.intercalate]

theorem splitRuns_intercalate {sep : List Char} (hsep : sep ≠ [])
    (hsd : ∀ c ∈ sep, isDelimChar c = true) :
    ∀ ws : List (List Char), ws ≠ [] → (∀ w ∈ ws, w ≠ [] ∧ NoDelims w) →
      splitRuns (List.intercalate sep ws) = ws := by
  intro ws
  induction ws with
  | nil => intro h; exact absurd rfl h
  | cons w ws ih =>
    intro _ hgood
    cases ws with
    | nil =>
      rw [intercalate_singleton]
      exact splitRunsGo_noDelims (hgood w (List.mem_cons_self _ _)).2
    | cons w2 rest =>
      have hw := hgood w (List.mem_cons_self _ _)
      obtain ⟨d, ds, rfl⟩ := List.exists_cons_of_ne_nil hsep
      rw [intercalate_cons_cons]
      rw [show w ++ (d :: ds) ++ List.intercalate (d :: ds) (w2 :: rest)
          = w ++ d :: (ds ++ List.intercalate (d :: ds) (w2 :: rest)) by simp]
      unfold splitRuns
      rw [splitRunsGo_append_delim hw.2 (hsd d (List.mem_cons_self _ _)) _]
      rw [splitRunsGo_skip_delims
        (fun c hc => hsd c (List.mem_cons_of_mem d hc)) _]
      have hw2 := hgood w2 (by simp)
      obtain ⟨e, es, he⟩ := List.exists_cons_of_ne_nil hw2.1
      have hE : isDelimChar e = false := hw2.2 e (by rw [he]; simp)
      have hJstart : ∃ t, List.intercalate (d :: ds) (w2 :: rest) = e :: t := by
        cases rest with
        | nil => exact ⟨es, by rw [intercalate_singleton, he]⟩
        | cons w3 r3 =>
          rw [intercalate_cons_cons, he]
          exact ⟨es ++ (d :: ds) ++ List.intercalate (d :: ds) (w3 :: r3),
            by simp⟩
      obtain ⟨t, ht⟩ := hJstart
      rw [ht, splitRunsGo_true_eq_false hE, ← ht]
      have hrec := ih (by simp)
        (fun x hx => hgood x (List.mem_cons_of_mem _ hx))
      unfold splitRuns at hrec
      rw [hrec]

/-! Unwrapping: cleaning a wrapped value recovers the value. -/

theorem cleanupFragment_wrapVal {v : List Char} (hv : NoEdgeWS v) (w : Wrapper)
    (hw : w ≠ Wrapper.none) : cleanupFragment (wrapVal w v) = v := by
  cases w with
  | none => exact absurd rfl hw
  | single =>
    have hne : NoEdgeWS ('\'' :: v ++ ['\'']) := by
      constructor
      · intro c hc
        simp only [List.cons_append, List.head?_cons, Option.some.injEq] at hc
        rw [← hc]
        decide
      · intro c hc
        rw [show '\'' :: v ++ ['\''] = ('\'' :: v) ++ ['\''] from rfl,
          List.getLast?_concat] at hc
        rw [← Option.some.injEq '\'' c |>.mp hc]
        decide
    simp only [cleanupFragment, wrapVal]
    rw [trimL_eq_self hne]
    rw [if_pos (Or.inr (Or.inl ⟨rfl, List.getLast?_concat _⟩))]
    rw [show ('\'' :: v ++ ['\'']).drop 1 = v ++ ['\''] from rfl,
      List.dropLast_concat]
    exact trimL_eq_self hv
  | double =>
    have hne : NoEdgeWS ('"' :: v ++ ['"']) := by
      constructor
      · intro c hc
        simp only [List.cons_append, List.head?_cons, Option.some.injEq] at hc
        rw [← hc]
        decide
      · intro c hc
        rw [show '"' :: v ++ ['"'] = ('"' :: v) ++ ['"'] from rfl,
          List.getLast?_concat] at hc
        rw [← Option.some.injEq '"' c |>.mp hc]
        decide
    simp only [cleanupFragment, wrapVal]
    rw [trimL_eq_self hne]
    rw [if_pos (Or.inl ⟨rfl, List.getLast?_concat _⟩)]
    rw [show ('"' :: v ++ ['"']).drop 1 = v ++ ['"'] from rfl,
      List.dropLast_concat]
    exact trimL_eq_self hv
  | paren =>
    have hne : NoEdgeWS ('(' :: v ++ [')']) := by
      constructor
      · intro c hc
        simp only [List.cons_append, List.head?_cons, Option.some.injEq] at hc
        rw [← hc]
        decide
      · intro c hc
        rw [show '(' :: v ++ [')'] = ('(' :: v) ++ [')'] from rfl,
          List.getLast?_concat] at hc
        rw [← Option.some.injEq ')' c |>.mp hc]
        decide
    simp only [cleanupFragment, wrapVal]
    rw [trimL_eq_self hne]
    rw [if_pos (Or.inr (Or.inr ⟨rfl, List.getLast?_concat _⟩))]
    rw [show ('(' :: v ++ [')']).drop 1 = v ++ [')'] from rfl,
      List.dropLast_concat]
    exact trimL_eq_self hv

theorem transformValues_eq_stages (values : List (List Char)) (w : Wrapper)
    (d : Bool) (cm : CaseMode) (tr : Bool) :
    transformValues values w d cm tr =
      wrapStage w (dedupStage d (caseStage cm (trimStage tr values))) := by
  cases w <;> cases cm <;> cases d <;> cases tr <;> rfl

theorem transformValuesApp_eq_stages (values : List (List Char)) (w : Wrapper)
    (d : Bool) (cm : CaseMode) :
    transformValuesApp values w d cm =
      wrapStage w (dedupStage d (caseStage cm values)) := by
  cases w <;> cases cm <;> cases d <;> rfl

theorem caseStage_eq_map (cm : CaseMode) (vs : List (List Char)) :
    caseStage cm vs = vs.map (caseStr cm) := by
  cases cm with
  | none => exact (List.map_id vs).symm
  | upper => rfl
  | lower => rfl

theorem trimStage_eq_of_noEdge {vs : List (List Char)}
    (h : ∀ v ∈ vs, NoEdgeWS v) (tr : Bool) : trimStage tr vs = vs := by
  cases tr with
  | false => rfl
  | true => exact map_eq_self_of_forall _ _ fun v hv => trimL_eq_self (h v hv)

theorem caseStr_fix (cm : CaseMode) (v : List Char) :
    caseStr cm (caseStr cm v) = caseStr cm v := by
  cases cm with
  | none => rfl
  | upper => exact toUpperCaseJs_fix v
  | lower => exact toLowerCaseJs_fix v

theorem caseStr_good {v : List Char} (h : v ≠ [] ∧ NoDelims v ∧ NoEdgeWS v)
    (cm : CaseMode) :
    caseStr cm v ≠ [] ∧ NoDelims (caseStr cm v) ∧ NoEdgeWS (caseStr cm v) := by
  cases cm with
  | none => exact h
  | upper =>
    exact ⟨toUpperCaseJs_ne_nil h.1, noDelims_toUpperCaseJs h.2.1,
      noEdgeWS_toUpperCaseJs h.2.2⟩
  | lower =>
    exact ⟨toLowerCaseJs_ne_nil h.1, noDelims_toLowerCaseJs h.2.1,
      noEdgeWS_toLowerCaseJs h.2.2⟩

theorem mem_dedupFirst_subset {α : Type} [DecidableEq α] {l : List α} {x : α}
    (h : x ∈ dedupFirst l) : x ∈ l := by
  rw [dedupFirst_eq_dedupSpec] at h
  exact mem_dedupSpec.mp h

theorem nodup_dedupFirst {α : Type} [DecidableEq α] (l : List α) :
    (dedupFirst l).Nodup := by
  rw [dedupFirst_eq_dedupSpec]
  exact nodup_dedupSpec l

theorem wrapStage_eq_map {w : Wrapper} (hw : w ≠ Wrapper.none)
    (vs : List (List Char)) : wrapStage w vs = vs.map (wrapVal w) := by
  cases w with
  | none => exact absurd rfl hw
  | single => rfl
  | double => rfl
  | paren => rfl

theorem wrapVal_ne_nil {w : Wrapper} (hw : w ≠ Wrapper.none) (v : List Char) :
    wrapVal w v ≠ [] := by
  cases w <;> simp [wrapVal]
  exact absurd rfl hw

theorem noDelims_wrapVal {w : Wrapper} {v : List Char} (h : NoDelims v) :
    NoDelims (wrapVal w v) := by
  cases w with
  | none => exact h
  | single =>
    intro c hc
    simp only [wrapVal, List.cons_append, List.mem_cons, List.mem_append,
      List.mem_singleton, List.not_mem_nil, or_false] at hc
    rcases hc with rfl | hc | rfl
    · decide
    · exact h c hc
    · decide
  | double =>
    intro c hc
    simp only [wrapVal, List.cons_append, List.mem_cons, List.mem_append,
      List.mem_singleton, List.not_mem_nil, or_false] at hc
    rcases hc with rfl | hc | rfl
    · decide
    · exact h c hc
    · decide
  | paren =>
    intro c hc
    simp only [wrapVal, List.cons_append, List.mem_cons, List.mem_append,
      List.mem_singleton, List.not_mem_nil, or_false] at hc
    rcases hc with rfl | hc | rfl
    · decide
    · exact h c hc
    · decide

theorem joinValues_eq_intercalate (vs : List (List Char)) (dk : Delimiter)
    (cd : List Char) : joinValues vs dk cd = List.intercalate (resolvedSep dk cd) vs := by
  cases dk <;> rfl

theorem resolvedSep_ne_nil {dk : Delimiter} (h : dk ≠ Delimiter.custom)
    (cd : List Char) : resolvedSep dk cd ≠ [] := by
  cases dk <;> simp [resolvedSep]
  exact absurd rfl h

theorem resolvedSep_delims {dk : Delimiter} (h : dk ≠ Delimiter.custom)
    (cd : List Char) : ∀ c ∈ resolvedSep dk cd, isDelimChar c = true := by
  cases dk with
  | custom => exact absurd rfl h
  | comma => intro c hc; simp only [resolvedSep, List.mem_singleton] at hc; rw [hc]; decide
  | semicolon => intro c hc; simp only [resolvedSep, List.mem_singleton] at hc; rw [hc]; decide
  | newline => intro c hc; simp only [resolvedSep, List.mem_singleton] at hc; rw [hc]; decide
  | pipe => intro c hc; simp only [resolvedSep, List.mem_singleton] at hc; rw [hc]; decide
  | commaNewline =>
    intro c hc
    simp only [resolvedSep, List.mem_cons, List.mem_singleton,
      List.not_mem_nil, or_false] at hc
    rcases hc with rfl | rfl <;> decide

/-! Round trip: parsing the joined wrapped values recovers them. -/

theorem joinValues_nil (dk : Delimiter) (cd : List Char) :
    joinValues [] dk cd = [] := by
  cases dk <;> rfl

theorem parseInput_nil : parseInput [] = [] := by decide

theorem wrapStage_nil (w : Wrapper) : wrapStage w [] = [] := by
  cases w <;> rfl

theorem reparse_wrapped {K : List (List Char)} {w : Wrapper} {dk : Delimiter}
    (cd : List Char) (hw : w ≠ Wrapper.none) (hdk : dk ≠ Delimiter.custom)
    (hKgood : ∀ v ∈ K, v ≠ [] ∧ NoDelims v ∧ NoEdgeWS v) :
    parseInput (joinValues (wrapStage w K) dk cd) = K := by
  cases K with
  | nil => rw [wrapStage_nil, joinValues_nil, parseInput_nil]
  | cons k ks =>
    have hKgood' : ∀ v ∈ k :: ks, v ≠ [] ∧ NoDelims v ∧ NoEdgeWS v := hKgood
    rw [joinValues_eq_intercalate]
    have hWgood : ∀ x ∈ wrapStage w (k :: ks), x ≠ [] ∧ NoDelims x := by
      intro x hx
      rw [wrapStage_eq_map hw] at hx
      obtain ⟨u, hu, rfl⟩ := List.mem_map.mp hx
      exact ⟨wrapVal_ne_nil hw u, noDelims_wrapVal (hKgood' u hu).2.1⟩
    have hWne : wrapStage w (k :: ks) ≠ [] := by
      rw [wrapStage_eq_map hw]
      simp
    have hsplit := splitRuns_intercalate (resolvedSep_ne_nil hdk cd)
      (resolvedSep_delims hdk cd) (wrapStage w (k :: ks)) hWne hWgood
    unfold parseInput
    rw [hsplit, wrapStage_eq_map hw, List.map_map]
    rw [show (cleanupFragment ∘ wrapVal w) = fun v => cleanupFragment (wrapVal w v)
      from rfl]
    rw [map_eq_self_of_forall _ (k :: ks)
      (fun v hv => cleanupFragment_wrapVal (hKgood' v hv).2.2 w hw)]
    rw [List.filter_eq_self]
    intro a ha
    have hne := (hKgood' a ha).1
    simpa [List.length_pos] using hne

theorem transform_of_dedup_output (w : Wrapper) (cm : CaseMode) (tr : Bool)
    {K : List (List Char)} (hKedge : ∀ v ∈ K, NoEdgeWS v)
    (hKfix : ∀ v ∈ K, caseStr cm v = v) (hKnodup : K.Nodup) :
    transformValues K w true cm tr = wrapStage w K := by
  rw [transformValues_eq_stages, trimStage_eq_of_noEdge hKedge tr,
    caseStage_eq_map, map_eq_self_of_forall _ K hKfix]
  rw [show dedupStage true (K : List (List Char)) = dedupFirst K from rfl,
    dedupFirst_eq_self_of_nodup hKnodup]

theorem cleanupSpec_eq (f : List Char) : cleanupSpec f = cleanupFragment f := by
  simp only [cleanupSpec, cleanupFragment]
  congr 1
  apply if_congr _ rfl rfl
  simp only [wrapPairs, List.any_cons, List.any_nil, Bool.or_eq_true,
    Bool.and_eq_true, beq_iff_eq, Bool.or_false]

theorem parse_aux_eq (l : List Char) :
    (∃ f X Y, splitRunsGo l false = f :: X ∧ splitSingle l = f :: Y ∧
      (X.map cleanupFragment).filter (fun p => decide (0 < p.length))
        = (Y.map cleanupFragment).filter (fun p => decide (0 < p.length))) ∧
    ((splitRunsGo l true).map cleanupFragment).filter (fun p => decide (0 < p.length))
      = ((splitSingle l).map cleanupFragment).filter (fun p => decide (0 < p.length)) := by
  induction l with
  | nil => exact ⟨⟨[], [], [], rfl, rfl, rfl⟩, rfl⟩
  | cons c cs ih =>
    by_cases hc : isDelimChar c = true
    · constructor
      · refine ⟨[], splitRunsGo cs true, splitSingle cs, ?_, ?_, ih.2⟩
        · simp [splitRunsGo, hc]
        · simp [splitSingle, hc]
      · rw [show splitRunsGo (c :: cs) true = splitRunsGo cs true by
          simp [splitRunsGo, hc]]
        rw [show splitSingle (c :: cs) = [] :: splitSingle cs by
          simp [splitSingle, hc]]
        rw [List.map_cons, show cleanupFragment [] = [] from rfl,
          List.filter_cons, if_neg (by decide)]
        exact ih.2
    · obtain ⟨⟨f, X, Y, h1, h2, h3⟩, _⟩ := ih
      have hsr : splitRunsGo (c :: cs) false = (c :: f) :: X := by
        simp [splitRunsGo, hc, h1, consHead]
      have hss : splitSingle (c :: cs) = (c :: f) :: Y := by
        simp [splitSingle, hc, h2, consHead]
      have hstrue : splitRunsGo (c :: cs) true = (c :: f) :: X := by
        simp [splitRunsGo, hc, h1, consHead]
      refine ⟨⟨c :: f, X, Y, hsr, hss, h3⟩, ?_⟩
      rw [hstrue, hss, List.map_cons, List.map_cons, List.filter_cons,
        List.filter_cons, h3]

theorem parseInput_eq_parseSpec (text : List Char) :
    parseInput text = parseSpec text := by
  unfold parseInput parseSpec splitRuns
  rw [funext cleanupSpec_eq]
  obtain ⟨⟨f, X, Y, h1, h2, h3⟩, _⟩ := parse_aux_eq text
  rw [h1, h2, List.map_cons, List.map_cons, List.filter_cons, List.filter_cons, h3]

theorem transformValues_eq_transformSpec (values : List (List Char)) (w : Wrapper)
    (d : Bool) (cm : CaseMode) (tr : Bool) :
    transformValues values w d cm tr = transformSpec values w d cm tr := by
  rw [transformValues_eq_stages, transformSpec]
  cases d with
  | false => rfl
  | true =>
    rw [show dedupStage true (caseStage cm (trimStage tr values))
        = dedupFirst (caseStage cm (trimStage tr values)) from rfl]
    rw [dedupFirst_eq_dedupSpec]
    rfl

/-! Helper lemmas for totality and degenerate inputs. -/

theorem transformValues_nil (w : Wrapper) (d : Bool) (cm : CaseMode) (tr : Bool) :
    transformValues [] w d cm tr = [] := by
  cases w <;> cases cm <;> cases d <;> cases tr <;> rfl

theorem mem_splitRunsGo_subset (l : List Char) :
    ∀ b f, f ∈ splitRunsGo l b → ∀ c ∈ f, c ∈ l := by
  induction l with
  | nil =>
    intro b f hf c hc
    simp only [splitRunsGo, List.mem_singleton] at hf
    subst hf
    simp at hc
  | cons a cs ih =>
    intro b f hf c hc
    simp only [splitRunsGo] at hf
    split at hf
    · split at hf
      · exact List.mem_cons_of_mem a (ih true f hf c hc)
      · rcases List.mem_cons.mp hf with rfl | hf
        · simp at hc
        · exact List.mem_cons_of_mem a (ih true f hf c hc)
    · cases hsp : splitRunsGo cs false with
      | nil => exact absurd hsp (splitRunsGo_ne_nil cs false)
      | cons g gs =>
        rw [hsp] at hf
        simp only [consHead, List.mem_cons] at hf
        rcases hf with rfl | hf
        · rcases List.mem_cons.mp hc with rfl | hc
          · exact List.mem_cons_self c cs
          · exact List.mem_cons_of_mem a
              (ih false g (by rw [hsp]; exact List.mem_cons_self g gs) c hc)
        · exact List.mem_cons_of_mem a
            (ih false f (by rw [hsp]; exact List.mem_cons_of_mem g hf) c hc)

theorem dropWhile_eq_nil_of_forall {α : Type} (p : α → Bool) (l : List α)
    (h : ∀ c ∈ l, p c = true) : l.dropWhile p = [] := by
  induction l with
  | nil => rfl
  | cons a l ih =>
    rw [List.dropWhile_cons, if_pos (h a (List.mem_cons_self a l))]
    exact ih fun c hc => h c (List.mem_cons_of_mem a hc)

theorem trimL_eq_nil_of_ws {f : List Char}
    (h : ∀ c ∈ f, isJsWhitespace c = true) : trimL f = [] := by
  unfold trimL
  rw [dropWhile_eq_nil_of_forall _ _ h]
  rfl

theorem cleanupFragment_eq_nil_of_ws {f : List Char}
    (h : ∀ c ∈ f, isJsWhitespace c = true) : cleanupFragment f = [] := by
  have ht : trimL f = [] := trimL_eq_nil_of_ws h
  simp only [cleanupFragment, ht]
  rw [if_neg]
  · rfl
  · rintro (⟨h1, _⟩ | ⟨h1, _⟩ | ⟨h1, _⟩) <;> simp at h1

theorem parseInput_eq_nil_of_delim_ws {text : List Char}
    (h : ∀ c ∈ text, isDelimChar c = true ∨ isJsWhitespace c = true) :
    parseInput text = [] := by
  unfold parseInput
  rw [List.filter_eq_nil_iff]
  intro a ha
  rw [List.mem_map] at ha
  obtain ⟨f, hf, rfl⟩ := ha
  have hnd := noDelims_splitRunsGo text false f hf
  have hws : ∀ c ∈ f, isJsWhitespace c = true := by
    intro c hc
    rcases h c (mem_splitRunsGo_subset text false f hf c hc) with hd | hw
    · rw [hnd c hc] at hd
      exact absurd hd (by simp)
    · exact hw
  rw [cleanupFragment_eq_nil_of_ws hws]
  simp

theorem upperChar_length_ascii {c : Char} (h : c.toNat < 128) :
    (upperChar c).length = 1 := by
  simp only [upperChar]
  split
  · rfl
  · rw [if_neg (by simp only [beq_iff_eq]; omega),
      if_neg (by simp only [beq_iff_eq]; omega),
      if_neg (by simp only [Bool.and_eq_true, decide_eq_true_eq, bne_iff_ne]; omega),
      if_neg (by simp only [beq_iff_eq]; omega)]
    rfl

theorem lowerChar_length_ascii {c : Char} (h : c.toNat < 128) :
    (lowerChar c).length = 1 := by
  simp only [lowerChar]
  split
  · rfl
  · rw [if_neg (by simp only [Bool.and_eq_true, decide_eq_true_eq, bne_iff_ne]; omega)]
    rfl

theorem toUpperCaseJs_length_ascii {v : List Char} (h : ∀ c ∈ v, c.toNat < 128) :
    (toUpperCaseJs v).length = v.length := by
  induction v with
  | nil => rfl
  | cons c v ih =>
    rw [toUpperCaseJs_cons, List.length_append, List.length_cons,
      upperChar_length_ascii (h c (List.mem_cons_self c v)),
      ih fun x hx => h x (List.mem_cons_of_mem c hx)]
    omega

theorem toLowerCaseJs_length_ascii {v : List Char} (h : ∀ c ∈ v, c.toNat < 128) :
    (toLowerCaseJs v).length = v.length := by
  induction v with
  | nil => rfl
  | cons c v ih =>
    rw [toLowerCaseJs_cons, List.length_append, List.length_cons,
      lowerChar_length_ascii (h c (List.mem_cons_self c v)),
      ih fun x hx => h x (List.mem_cons_of_mem c hx)]
    omega

theorem upperChar_eq_self_nonletter {c : Char} (h : c.toNat < 128)
    (hl : isAsciiLetter c = false) : upperChar c = [c] := by
  have hnl : ¬(97 ≤ c.toNat ∧ c.toNat ≤ 122) := by
    intro hx
    have hT : isAsciiLetter c = true := by
      simp only [isAsciiLetter, Bool.or_eq_true, Bool.and_eq_true,
        decide_eq_true_eq]
      exact Or.inr hx
    rw [hl] at hT
    exact Bool.false_ne_true hT
  exact upperChar_eq_self hnl (by omega) (by omega) (by omega) (by omega)

theorem lowerChar_eq_self_nonletter {c : Char} (h : c.toNat < 128)
    (hl : isAsciiLetter c = false) : lowerChar c = [c] := by
  have hnl : ¬(65 ≤ c.toNat ∧ c.toNat ≤ 90) := by
    intro hx
    have hT : isAsciiLetter c = true := by
      simp only [isAsciiLetter, Bool.or_eq_true, Bool.and_eq_true,
        decide_eq_true_eq]
      exact Or.inl hx
    rw [hl] at hT
    exact Bool.false_ne_true hT
  exact lowerChar_eq_self hnl (by omega)

theorem transformApp_eq_core_on_parsed (text : List Char) (w : Wrapper)
    (d : Bool) (cm : CaseMode) :
    transformValuesApp (parseInput text) w d cm
      = transformValues (parseInput text) w d cm true := by
  rw [transformValuesApp_eq_stages, transformValues_eq_stages,
    trimStage_eq_of_noEdge (fun v hv => (parseInput_good text v hv).2.2) true]

/-! The claims. -/

/-- C1: parse splits the input on each maximal run of comma, semicolon,
newline, and pipe, trims each fragment, strips one layer of symmetric
wrapping when both ends match, trims again, discards empty results, and
keeps left-to-right order.  Formally: the source parser agrees with the
specification-side parser that splits at every single delimiter character
and relies on the final filter to drop the empty artifacts between
consecutive delimiters, and the two quoted examples evaluate as stated
(`parse("a,,;;\n\nb")` is `["a","b"]`, and the fragment `(mismatched"`
with mismatched ends is left untouched). -/
theorem c1_parse_correct :
    (∀ text : List Char, parseInput text = parseSpec text) ∧
    parseInput "a,,;;\n\nb".toList = ["a".toList, "b".toList] ∧
    parseInput "(mismatched\"".toList = ["(mismatched\"".toList] :=
  ⟨parseInput_eq_parseSpec, by decide, by decide⟩

/-- C2: transform applies trim, case conversion, deduplication, and
wrapping in that fixed order, each stage over the whole list; its
deduplication agrees with the specification wording (remove later
duplicates keeping the first occurrence by exact equality, so dedup acts
on the post-trim post-case values and before wrapping), and deduplication
keeps the remaining elements in their original relative order (the result
is a duplicate-free sublist with the same members). -/
theorem c2_transform_stage_order :
    (∀ (values : List (List Char)) (w : Wrapper) (d : Bool) (cm : CaseMode)
      (tr : Bool), transformValues values w d cm tr = transformSpec values w d cm tr) ∧
    (∀ l : List (List Char), List.Sublist (dedupFirst l) l ∧
      (dedupFirst l).Nodup ∧ ∀ x, x ∈ dedupFirst l ↔ x ∈ l) :=
  ⟨transformValues_eq_transformSpec,
    fun l => ⟨by rw [dedupFirst_eq_dedupSpec]; exact dedupSpec_sublist l,
      nodup_dedupFirst l,
      fun x => by rw [dedupFirst_eq_dedupSpec]; exact mem_dedupSpec⟩⟩

/-- C3: join concatenates with exactly one copy of the resolved separator
between adjacent elements and nowhere else: zero elements yield the empty
string, one element is returned unchanged, each extra element is preceded
by exactly one separator, and the separator table is comma, semicolon, one
newline character, comma immediately followed by newline, and pipe. -/
theorem c3_join_separator :
    (∀ (dk : Delimiter) (cd : List Char), joinValues [] dk cd = []) ∧
    (∀ (dk : Delimiter) (cd v : List Char), joinValues [v] dk cd = v) ∧
    (∀ (dk : Delimiter) (cd a b : List Char) (r : List (List Char)),
      joinValues (a :: b :: r) dk cd
        = a ++ resolvedSep dk cd ++ joinValues (b :: r) dk cd) ∧
    (∀ cd : List Char, resolvedSep Delimiter.comma cd = [','] ∧
      resolvedSep Delimiter.semicolon cd = [';'] ∧
      resolvedSep Delimiter.newline cd = ['\n'] ∧
      resolvedSep Delimiter.commaNewline cd = [',', '\n'] ∧
      resolvedSep Delimiter.pipe cd = ['|']) := by
  refine ⟨joinValues_nil, ?_, ?_, fun cd => ⟨rfl, rfl, rfl, rfl, rfl⟩⟩
  · intro dk cd v
    rw [joinValues_eq_intercalate, intercalate_singleton]
  · intro dk cd a b r
    rw [joinValues_eq_intercalate, joinValues_eq_intercalate,
      intercalate_cons_cons]

/-- C4 counterexample: the claim says case conversion alters no character
outside the ASCII letters and never changes a value's length, but the
JavaScript conversion maps sharp s to SS (length grows from one to two)
and maps the non-ASCII letter e-acute to E-acute. -/
theorem c4_counterexample :
    transformValues [['ß']] Wrapper.none false CaseMode.upper false = [['S', 'S']] ∧
    (['S', 'S'] : List Char).length ≠ ([('ß' : Char)] : List Char).length ∧
    transformValues [['é']] Wrapper.none false CaseMode.upper false = [['É']] ∧
    isAsciiLetter 'é' = false ∧ ('É' : Char) ≠ 'é' := by decide

/-- C4 (amended): restricted to values whose characters are ASCII, case
conversion under upper or lower is characterwise, preserves the length,
and alters only the ASCII letters, leaving every digit, symbol, and other
non-letter character unchanged; outside ASCII the Unicode default case
conversion may alter letters and lengthen the value. -/
theorem c4_amended (v : List Char) (h : ∀ c ∈ v, c.toNat < 128) :
    (toUpperCaseJs v).length = v.length ∧
    (toLowerCaseJs v).length = v.length ∧
    (∀ c ∈ v, isAsciiLetter c = false → upperChar c = [c] ∧ lowerChar c = [c]) ∧
    transformValues [v] Wrapper.none false CaseMode.upper false = [toUpperCaseJs v] ∧
    transformValues [v] Wrapper.none false CaseMode.lower false = [toLowerCaseJs v] := by
  refine ⟨toUpperCaseJs_length_ascii h, toLowerCaseJs_length_ascii h,
    fun c hc hl => ⟨upperChar_eq_self_nonletter (h c hc) hl,
      lowerChar_eq_self_nonletter (h c hc) hl⟩, rfl, rfl⟩

theorem c4_amended_witness :
    (toUpperCaseJs "a1!Z".toList).length = "a1!Z".toList.length :=
  (c4_amended "a1!Z".toList (by decide)).1

/-- C5 counterexample: the claim says join uses the custom delimiter
string verbatim even when it coincides with the name of another delimiter
kind, but the UI version in `src/App.tsx` rewrites a custom delimiter
equal to the string NEWLINE into a newline character, so the output is not
the verbatim intercalation. -/
theorem c5_counterexample :
    joinValuesApp [['a'], ['b']] DelimiterApp.custom "NEWLINE".toList
      = ['a', '\n', 'b'] ∧
    List.intercalate "NEWLINE".toList [['a'], ['b']] = "aNEWLINEb".toList ∧
    (['a', '\n', 'b'] : List Char) ≠ "aNEWLINEb".toList := by decide

/-- C5 (amended): the shared core engine's join uses the custom delimiter
verbatim for every string, including multi-character strings and strings
containing structural delimiters; the first UI version's join also uses it
verbatim except when the custom string equals NEWLINE, which it replaces
by a single newline.  The quoted example holds: formatting a,b,c with the
custom delimiter space-pipe-space, no wrapper, and no dedup yields
a pipe-separated list. -/
theorem c5_amended (vs : List (List Char)) (cd : List Char)
    (h : cd ≠ "NEWLINE".toList) :
    (∀ (cd2 : List Char) (vs2 : List (List Char)),
      joinValues vs2 Delimiter.custom cd2 = List.intercalate cd2 vs2) ∧
    joinValuesApp vs DelimiterApp.custom cd = List.intercalate cd vs ∧
    (∀ vs2 : List (List Char),
      joinValuesApp vs2 DelimiterApp.custom "NEWLINE".toList
        = List.intercalate ['\n'] vs2) ∧
    format "a,b,c".toList
      (FormattingOptions.mk Wrapper.none Delimiter.custom " | ".toList
        CaseMode.none false true) = "a | b | c".toList := by
  refine ⟨fun cd2 vs2 => rfl, ?_, fun vs2 => rfl, by decide⟩
  simp only [joinValuesApp]
  rw [if_pos trivial, if_neg h]

theorem c5_amended_witness :
    joinValuesApp [['a'], ['b']] DelimiterApp.custom " | ".toList
      = List.intercalate " | ".toList [['a'], ['b']] :=
  (c5_amended [['a'], ['b']] " | ".toList (by decide)).2.1

/-- C6 counterexample: with wrapper none and dedup enabled, re-parsing the
joined output and transforming again can change a value, because the
parser strips one more layer of quoting on the second pass: the input with
a doubly quoted a first transforms to the singly quoted value, and the
second pass strips it to the bare value. -/
theorem c6_counterexample :
    transformValues (parseInput "''a''".toList) Wrapper.none true
        CaseMode.none true = ["'a'".toList] ∧
    transformValues
        (parseInput (joinValues
          (transformValues (parseInput "''a''".toList) Wrapper.none true
            CaseMode.none true)
          Delimiter.comma []))
        Wrapper.none true CaseMode.none true
      = ["a".toList] ∧
    (["'a'".toList] : List (List Char)) ≠ ["a".toList] := by decide

/-- C6 (amended): with dedup enabled, a quote or parenthesis wrapper, and
a non-custom delimiter kind, re-parsing the joined output and running
transform again with the same options returns exactly the first
transform's list: no value changes and the list does not shrink. -/
theorem c6_amended (text : List Char) (w : Wrapper) (cm : CaseMode) (tr : Bool)
    (dk : Delimiter) (cd : List Char) (hw : w ≠ Wrapper.none)
    (hdk : dk ≠ Delimiter.custom) :
    transformValues
        (parseInput (joinValues (transformValues (parseInput text) w true cm tr)
          dk cd))
        w true cm tr
      = transformValues (parseInput text) w true cm tr := by
  have hPgood := parseInput_good text
  have htrim := trimStage_eq_of_noEdge (fun v hv => (hPgood v hv).2.2) tr
  have hCgood : ∀ v ∈ caseStage cm (parseInput text),
      v ≠ [] ∧ NoDelims v ∧ NoEdgeWS v := by
    intro v hv
    rw [caseStage_eq_map] at hv
    obtain ⟨u, hu, rfl⟩ := List.mem_map.mp hv
    exact caseStr_good (hPgood u hu) cm
  have hCfix : ∀ v ∈ caseStage cm (parseInput text), caseStr cm v = v := by
    intro v hv
    rw [caseStage_eq_map] at hv
    obtain ⟨u, hu, rfl⟩ := List.mem_map.mp hv
    exact caseStr_fix cm u
  have hKsub : ∀ v ∈ dedupFirst (caseStage cm (parseInput text)),
      v ∈ caseStage cm (parseInput text) := fun v hv => mem_dedupFirst_subset hv
  have hKgood := fun v hv => hCgood v (hKsub v hv)
  have hKfix := fun v hv => hCfix v (hKsub v hv)
  have hKnodup := nodup_dedupFirst (caseStage cm (parseInput text))
  have ht1 : transformValues (parseInput text) w true cm tr
      = wrapStage w (dedupFirst (caseStage cm (parseInput text))) := by
    rw [transformValues_eq_stages, htrim]
    rfl
  rw [ht1, reparse_wrapped cd hw hdk hKgood,
    transform_of_dedup_output w cm tr (fun v hv => (hKgood v hv).2.2) hKfix
      hKnodup]

theorem c6_amended_witness :
    transformValues
        (parseInput (joinValues
          (transformValues (parseInput "b,a,b".toList) Wrapper.single true
            CaseMode.none true)
          Delimiter.comma []))
        Wrapper.single true CaseMode.none true
      = transformValues (parseInput "b,a,b".toList) Wrapper.single true
          CaseMode.none true :=
  c6_amended "b,a,b".toList Wrapper.single CaseMode.none true Delimiter.comma []
    (by decide) (by decide)

/-- C7: every element of the parsed value list is non-empty and has no
leading or trailing white space (so it is not purely white space), and the
elements occur in the raw input as disjoint infixes in left-to-right
order. -/
theorem c7_parse_invariants :
    ∀ text : List Char,
      (∀ v ∈ parseInput text, v ≠ [] ∧ NoEdgeWS v) ∧
      OccursInOrder (parseInput text) text :=
  fun text =>
    ⟨fun v hv => ⟨(parseInput_good text v hv).1, (parseInput_good text v hv).2.2⟩,
      occursInOrder_parseInput text⟩

/-- C8: the pipeline is total with no failure modes: parse of the empty
string is the empty list, format of the empty string is the empty string
under every option record, any input consisting only of delimiter and
white-space characters formats to the empty string, and format is exactly
join after transform after parse (all three total functions). -/
theorem c8_total_safe :
    parseInput [] = [] ∧
    (∀ o : FormattingOptions, format [] o = []) ∧
    (∀ (text : List Char) (o : FormattingOptions),
      (∀ c ∈ text, isDelimChar c = true ∨ isJsWhitespace c = true) →
      format text o = []) ∧
    (∀ (text : List Char) (o : FormattingOptions),
      format text o = joinValues
        (transformValues (parseInput text) o.wrapper o.dedupEnabled o.caseMode
          o.trimEnabled)
        o.delimiterKind o.customDelimiter) := by
  refine ⟨parseInput_nil, ?_, ?_, fun text o => rfl⟩
  · intro o
    rw [format, parseInput_nil, transformValues_nil, joinValues_nil]
  · intro text o h
    rw [format, parseInput_eq_nil_of_delim_ws h, transformValues_nil,
      joinValues_nil]

theorem c8_witness :
    format ", ;\n |".toList
      (FormattingOptions.mk Wrapper.single Delimiter.comma [] CaseMode.none
        true true) = [] :=
  c8_total_safe.2.2.1 ", ;\n |".toList _ (by decide)

/-- C9: the first UI version's transformValues, which has no trim stage,
agrees with the shared core engine's transformValues at trim enabled on
every parser-produced list, because every parsed value is already trimmed
and so the core's trim stage is the identity there. -/
theorem c9_app_transform_refines_core :
    ∀ (text : List Char) (w : Wrapper) (d : Bool) (cm : CaseMode),
      transformValuesApp (parseInput text) w d cm
        = transformValues (parseInput text) w d cm true :=
  transformApp_eq_core_on_parsed

/-- C10: a fragment that trims to a lone double or single quote passes the
symmetric-wrapping check (the same character is both first and last), the
one-layer strip empties it, and it is discarded; parse of the three
fragments a, lone double quote, b returns only a and b. -/
theorem c10_lone_quote_dropped :
    (∀ f : List Char, trimL f = ['"'] ∨ trimL f = ['\''] →
      cleanupFragment f = []) ∧
    parseInput "a, \" , b".toList = ["a".toList, "b".toList] := by
  constructor
  · intro f hf
    simp only [cleanupFragment]
    rcases hf with hf | hf <;> rw [hf]
    · rw [if_pos (Or.inl ⟨rfl, rfl⟩)]
      rfl
    · rw [if_pos (Or.inr (Or.inl ⟨rfl, rfl⟩))]
      rfl
  · decide

theorem c10_witness : cleanupFragment [' ', '"'] = [] :=
  c10_lone_quote_dropped.1 [' ', '"'] (Or.inl (by decide))

example : trimL "  a b \t".toList = "a b".toList := by decide

example : parseInput "a,,;;\n\nb".toList = [['a'], ['b']] := by decide

example : parseInput " 'x' , \"y\" ,(z)".toList = [['x'], ['y'], ['z']] := by decide

example : joinValues [['a'], ['b']] .commaNewline [] = ['a', ',', '\n', 'b'] := by decide

example : toUpperCaseJs "aß1é".toList = "ASS1É".toList := by decide

example : transformValues [" a ".toList, ['A']] .single true .lower true =
    ["'a'".toList] := by decide

example : joinValuesApp [['a'], ['b']] .custom "NEWLINE".toList = ['a', '\n', 'b'] := by
  decide

end TextTools
